import Mathlib

/-!
# Heart-rate block chain: the chain integrity core of `main.go`

A shallow embedding of the block chain kept by `main.go` and proofs about it.

Conventions of the embedding.

* A Go `string` is an immutable sequence of bytes: `GoString := List (Fin 256)`.
* A Go `int` is taken at its 64-bit width.  Fields are held as mathematical
  integers, and the one place where the program does arithmetic on them
  (`oldBlock.Index + 1`) is written with the explicit wrap-around `wrapInt`.
* `time.Now().String()` is an input of the functions that read the clock: the
  text `ts` of the clock reading.
* The package-level variable `Blockchain` is passed explicitly.
* Indexing an empty slice panics; a function that can panic returns `Option`,
  with `none` for the panic.
* The library functions the program calls (`string(int)`, `sha256`,
  `hex.EncodeToString`) are written out after their definitions in the Go
  language specification, in package `unicode/utf8`, in FIPS 180-4 and in
  package `encoding/hex`.
-/

namespace BpmChain

/-! ## Go strings and machine integers -/

/-- A Go string: a sequence of bytes. -/
abbrev GoString := List (Fin 256)

/-- The conversion `byte(x)` of a non-negative number: the low eight bits. -/
def toByte (n : Nat) : Fin 256 := ⟨n % 256, Nat.mod_lt _ (by decide)⟩

/-- The result of an `int` operation whose mathematical value is `x`: two's
complement wrap-around at 64 bits. -/
def wrapInt (x : Int) : Int := (x + 2 ^ 63) % 2 ^ 64 - 2 ^ 63

/-- The values a Go `int` can hold. -/
def IsInt (x : Int) : Prop := -(2 ^ 63) ≤ x ∧ x < 2 ^ 63

instance (x : Int) : Decidable (IsInt x) := by unfold IsInt; infer_instance

/-! ## `string(int)`: the conversion of an integer to a string

The Go specification: "Converting a signed or unsigned integer value to a
string type yields a string containing the UTF-8 representation of the
integer.  Values outside the range of valid Unicode code points are converted
to U+FFFD."  The definitions follow `utf8.EncodeRune`. -/

/-- The replacement character U+FFFD. -/
def runeError : Nat := 0xFFFD

/-- The largest Unicode code point. -/
def maxRune : Nat := 0x10FFFF

def surrogateMin : Nat := 0xD800

def surrogateMax : Nat := 0xDFFF

/-- The three-byte form of `utf8.EncodeRune`. -/
def encode3 (r : Nat) : GoString :=
  [toByte (0xE0 ||| (r >>> 12) % 256),
   toByte (0x80 ||| ((r >>> 6) % 256 &&& 0x3F)),
   toByte (0x80 ||| (r % 256 &&& 0x3F))]

/-- The four-byte form of `utf8.EncodeRune`. -/
def encode4 (r : Nat) : GoString :=
  [toByte (0xF0 ||| (r >>> 18) % 256),
   toByte (0x80 ||| ((r >>> 12) % 256 &&& 0x3F)),
   toByte (0x80 ||| ((r >>> 6) % 256 &&& 0x3F)),
   toByte (0x80 ||| (r % 256 &&& 0x3F))]

/-- The UTF-8 text of a rune, as `utf8.EncodeRune` writes it; the argument is
the rune read as an unsigned 32-bit number, so that a negative rune is a large
number. -/
def encodeRune (i : Nat) : GoString :=
  if i ≤ 0x7F then [toByte i]
  else if i ≤ 0x7FF then
    [toByte (0xC0 ||| (i >>> 6) % 256), toByte (0x80 ||| (i % 256 &&& 0x3F))]
  else if i > maxRune ∨ (surrogateMin ≤ i ∧ i ≤ surrogateMax) then encode3 runeError
  else if i ≤ 0xFFFF then encode3 i
  else encode4 i

/-- The Go conversion `string(v)` of an `int`: a value that does not fit a rune
(32 bits, signed) becomes U+FFFD, and the rune is then encoded as UTF-8. -/
def intstring (v : Int) : GoString :=
  if -(2 ^ 31) ≤ v ∧ v < 2 ^ 31 then encodeRune (v % 2 ^ 32).toNat
  else encodeRune runeError

/-! ## SHA-256 (FIPS 180-4) and hexadecimal text -/

/-- Rotation to the right of a 32-bit word. -/
def rotr (n x : Nat) : Nat := ((x >>> n) ||| (x <<< (32 - n))) % 2 ^ 32

def bigSigma0 (x : Nat) : Nat := rotr 2 x ^^^ rotr 13 x ^^^ rotr 22 x

def bigSigma1 (x : Nat) : Nat := rotr 6 x ^^^ rotr 11 x ^^^ rotr 25 x

def smallSigma0 (x : Nat) : Nat := rotr 7 x ^^^ rotr 18 x ^^^ (x >>> 3)

def smallSigma1 (x : Nat) : Nat := rotr 17 x ^^^ rotr 19 x ^^^ (x >>> 10)

def ch (x y z : Nat) : Nat := (x &&& y) ^^^ ((x ^^^ (2 ^ 32 - 1)) &&& z)

def maj (x y z : Nat) : Nat := (x &&& y) ^^^ (x &&& z) ^^^ (y &&& z)

/-- The sixty-four round constants. -/
def roundConstants : List Nat :=
  [0x428a2f98, 0x71374491, 0xb5c0fbcf, 0xe9b5dba5, 0x3956c25b, 0x59f111f1, 0x923f82a4, 0xab1c5ed5,
   0xd807aa98, 0x12835b01, 0x243185be, 0x550c7dc3, 0x72be5d74, 0x80deb1fe, 0x9bdc06a7, 0xc19bf174,
   0xe49b69c1, 0xefbe4786, 0x0fc19dc6, 0x240ca1cc, 0x2de92c6f, 0x4a7484aa, 0x5cb0a9dc, 0x76f988da,
   0x983e5152, 0xa831c66d, 0xb00327c8, 0xbf597fc7, 0xc6e00bf3, 0xd5a79147, 0x06ca6351, 0x14292967,
   0x27b70a85, 0x2e1b2138, 0x4d2c6dfc, 0x53380d13, 0x650a7354, 0x766a0abb, 0x81c2c92e, 0x92722c85,
   0xa2bfe8a1, 0xa81a664b, 0xc24b8b70, 0xc76c51a3, 0xd192e819, 0xd6990624, 0xf40e3585, 0x106aa070,
   0x19a4c116, 0x1e376c08, 0x2748774c, 0x34b0bcb5, 0x391c0cb3, 0x4ed8aa4a, 0x5b9cca4f, 0x682e6ff3,
   0x748f82ee, 0x78a5636f, 0x84c87814, 0x8cc70208, 0x90befffa, 0xa4506ceb, 0xbef9a3f7, 0xc67178f2]

/-- The eight working variables, also the running digest. -/
structure Words where
  a : Nat
  b : Nat
  c : Nat
  d : Nat
  e : Nat
  f : Nat
  g : Nat
  h : Nat
deriving DecidableEq, Repr

/-- The initial digest. -/
def initialWords : Words :=
  ⟨0x6a09e667, 0xbb67ae85, 0x3c6ef372, 0xa54ff53a, 0x510e527f, 0x9b05688c, 0x1f83d9ab, 0x5be0cd19⟩

/-- The message with its padding: a one bit, zeros up to 56 modulo 64 bytes,
and the length in bits as eight bytes, most significant first. -/
def pad (msg : GoString) : List Nat :=
  let len := msg.length
  let zeros := (64 - (len + 9) % 64) % 64
  let bits := (8 * len) % 2 ^ 64
  msg.map Fin.val ++ [0x80] ++ List.replicate zeros 0 ++
    (List.range 8).map (fun i => (bits >>> (8 * (7 - i))) % 256)

/-- The 32-bit word that starts at byte `4 * j` of a chunk, most significant
byte first. -/
def wordAt (chunk : List Nat) (j : Nat) : Nat :=
  chunk.getD (4 * j) 0 * 2 ^ 24 + chunk.getD (4 * j + 1) 0 * 2 ^ 16 +
    chunk.getD (4 * j + 2) 0 * 2 ^ 8 + chunk.getD (4 * j + 3) 0

/-- One more word of the message schedule. -/
def extendSchedule (w : List Nat) (t : Nat) : List Nat :=
  w ++ [(smallSigma1 (w.getD (t - 2) 0) + w.getD (t - 7) 0 +
          smallSigma0 (w.getD (t - 15) 0) + w.getD (t - 16) 0) % 2 ^ 32]

/-- The sixty-four words of the message schedule of a chunk. -/
def schedule (chunk : List Nat) : List Nat :=
  ((List.range 48).map (· + 16)).foldl extendSchedule ((List.range 16).map (wordAt chunk))

/-- One round of the compression function, with round constant `k` and
schedule word `w`. -/
def round (s : Words) (kw : Nat × Nat) : Words :=
  let t1 := s.h + bigSigma1 s.e + ch s.e s.f s.g + kw.1 + kw.2
  let t2 := bigSigma0 s.a + maj s.a s.b s.c
  ⟨(t1 + t2) % 2 ^ 32, s.a, s.b, s.c, (s.d + t1) % 2 ^ 32, s.e, s.f, s.g⟩

/-- The compression of one 64-byte chunk into the running digest. -/
def compress (s : Words) (chunk : List Nat) : Words :=
  let r := (roundConstants.zip (schedule chunk)).foldl round s
  ⟨(s.a + r.a) % 2 ^ 32, (s.b + r.b) % 2 ^ 32, (s.c + r.c) % 2 ^ 32, (s.d + r.d) % 2 ^ 32,
   (s.e + r.e) % 2 ^ 32, (s.f + r.f) % 2 ^ 32, (s.g + r.g) % 2 ^ 32, (s.h + r.h) % 2 ^ 32⟩

/-- The 64-byte chunks of a padded message. -/
def chunks (p : List Nat) : List (List Nat) :=
  (List.range (p.length / 64)).map (fun i => (p.drop (64 * i)).take 64)

/-- The four bytes of a word, most significant first. -/
def wordBytes (w : Nat) : GoString :=
  [toByte (w >>> 24), toByte (w >>> 16), toByte (w >>> 8), toByte w]

/-- The digest `sha256.New(); h.Write(msg); h.Sum(nil)`: thirty-two bytes. -/
def sha256Sum (msg : GoString) : GoString :=
  let s := (chunks (pad msg)).foldl compress initialWords
  [s.a, s.b, s.c, s.d, s.e, s.f, s.g, s.h].flatMap wordBytes

/-- The digit of `hex.EncodeToString` for a value below sixteen: a character of
`0123456789abcdef`. -/
def hexDigit (n : Nat) : Fin 256 :=
  if n < 10 then toByte (48 + n) else toByte (87 + n)

/-- The library function `hex.EncodeToString`: two digits for every byte, the
high half first. -/
def hexEncodeToString (src : GoString) : GoString :=
  src.flatMap (fun v => [hexDigit (v.val >>> 4), hexDigit (v.val &&& 0x0f)])

/-- The inverse of `hexDigit` on the sixteen digits (`hex.DecodeString` reads a
digit this way). -/
def fromHexDigit (c : Fin 256) : Nat :=
  if c.val < 58 then c.val - 48 else c.val - 87

/-- The library function `hex.DecodeString` on a text of digits, two digits to
a byte; a trailing single digit is dropped. -/
def hexDecodeString : GoString → GoString
  | hi :: lo :: rest => toByte (16 * fromHexDigit hi + fromHexDigit lo) :: hexDecodeString rest
  | _ => []

/-! ## The program -/

/-- The type `Block` of `main.go`, its fields in the order of the source. -/
structure Block where
  Index : Int
  Timestamp : GoString
  BPM : Int
  Hash : GoString
  PrevHash : GoString
deriving DecidableEq, Repr

/-- The local variable `record` of `calculateHash`: the text that is hashed. -/
def record (block : Block) : GoString :=
  intstring block.Index ++ block.Timestamp ++ intstring block.BPM ++ block.PrevHash

/-- The function `calculateHash` of `main.go`. -/
def calculateHash (block : Block) : GoString :=
  let hashed := sha256Sum (record block)
  hexEncodeToString hashed

/-- The function `generateBlock` of `main.go`; `ts` is `time.Now().String()`.
The second component is the returned `error`, `none` for `nil`. -/
def generateBlock (oldBlock : Block) (BPM : Int) (ts : GoString) : Block × Option GoString :=
  let newBlock : Block := ⟨0, [], 0, [], []⟩
  let newBlock := { newBlock with Index := wrapInt (oldBlock.Index + 1) }
  let newBlock := { newBlock with Timestamp := ts }
  let newBlock := { newBlock with BPM := BPM }
  let newBlock := { newBlock with PrevHash := oldBlock.Hash }
  let newBlock := { newBlock with Hash := calculateHash newBlock }
  (newBlock, none)

/-- The function `isBlockValid` of `main.go`. -/
def isBlockValid (newBlock oldBlock : Block) : Bool :=
  if wrapInt (oldBlock.Index + 1) ≠ newBlock.Index then false
  else if oldBlock.Hash ≠ newBlock.PrevHash then false
  else if calculateHash newBlock ≠ newBlock.Hash then false
  else true

/-- The function `replaceChain` of `main.go`: the value of the variable
`Blockchain` after the call. -/
def replaceChain (newBlocks Blockchain : List Block) : List Block :=
  if newBlocks.length > Blockchain.length then newBlocks else Blockchain

/-- What `handleWriteBlock` answers. -/
inductive Reply where
  | badRequest
  | internalServerError (m : Int)
  | created (newBlock : Block)
deriving DecidableEq, Repr

/-- The function `handleWriteBlock` of `main.go`.  `body` is what the JSON
decoder made of the request (`none` when `Decode` returned an error) and `ts`
the clock reading.  The result is the new value of `Blockchain` and the reply,
or `none` when `Blockchain[len(Blockchain)-1]` panics on an empty chain. -/
def handleWriteBlock (Blockchain : List Block) (body : Option Int) (ts : GoString) :
    Option (List Block × Reply) :=
  match body with
  | none => some (Blockchain, Reply.badRequest)
  | some bpm =>
    match Blockchain.getLast? with
    | none => none
    | some tail =>
      match generateBlock tail bpm ts with
      | (_, some _) => some (Blockchain, Reply.internalServerError bpm)
      | (newBlock, none) =>
        if isBlockValid newBlock tail then
          let newBlockchain := Blockchain ++ [newBlock]
          some (replaceChain newBlockchain Blockchain, Reply.created newBlock)
        else
          some (Blockchain, Reply.created newBlock)

/-- The genesis block that `main` builds; `ts` is the clock reading. -/
def genesisBlock (ts : GoString) : Block := ⟨0, ts, 0, [], []⟩

/-- The variable `Blockchain` once the function started by `main` has run:
the genesis block appended to the empty chain. -/
def main (ts : GoString) : List Block :=
  let Blockchain : List Block := []
  Blockchain ++ [genesisBlock ts]

/-- A sequence of write requests, each a payload and the clock reading of its
`generateBlock`, handled one after the other. -/
def handleWrites (Blockchain : List Block) : List (Int × GoString) → Option (List Block)
  | [] => some Blockchain
  | (bpm, ts) :: rest =>
    match handleWriteBlock Blockchain (some bpm) ts with
    | none => none
    | some (chain, _) => handleWrites chain rest

/-- A code point that has a UTF-8 encoding of its own: at most U+10FFFF and
not a surrogate. -/
def ValidRune (v : Int) : Prop := 0 ≤ v ∧ v ≤ 0x10FFFF ∧ ¬ (0xD800 ≤ v ∧ v ≤ 0xDFFF)

instance (v : Int) : Decidable (ValidRune v) := by unfold ValidRune; infer_instance

/-- Two blocks that differ in exactly one of the four hashed fields `Index`,
`Timestamp`, `BPM`, `PrevHash`, the other three being equal. -/
def DifferInOneField (b c : Block) : Prop :=
  (b.Index ≠ c.Index ∧ b.Timestamp = c.Timestamp ∧ b.BPM = c.BPM ∧ b.PrevHash = c.PrevHash) ∨
  (b.Index = c.Index ∧ b.Timestamp ≠ c.Timestamp ∧ b.BPM = c.BPM ∧ b.PrevHash = c.PrevHash) ∨
  (b.Index = c.Index ∧ b.Timestamp = c.Timestamp ∧ b.BPM ≠ c.BPM ∧ b.PrevHash = c.PrevHash) ∨
  (b.Index = c.Index ∧ b.Timestamp = c.Timestamp ∧ b.BPM = c.BPM ∧ b.PrevHash ≠ c.PrevHash)

instance (b c : Block) : Decidable (DifferInOneField b c) := by
  unfold DifferInOneField; infer_instance

/-- The text `2021-03-04 10:15:00 +0000 UTC`, a clock reading as `t.String()`
writes it. -/
def sampleTime : GoString :=
  [0x32, 0x30, 0x32, 0x31, 0x2d, 0x30, 0x33, 0x2d, 0x30, 0x34, 0x20, 0x31, 0x30, 0x3a, 0x31,
   0x35, 0x3a, 0x30, 0x30, 0x20, 0x2b, 0x30, 0x30, 0x30, 0x30, 0x20, 0x55, 0x54, 0x43]

/-- The text `2021-03-04 10:15:07 +0000 UTC`, a later clock reading. -/
def laterTime : GoString :=
  [0x32, 0x30, 0x32, 0x31, 0x2d, 0x30, 0x33, 0x2d, 0x30, 0x34, 0x20, 0x31, 0x30, 0x3a, 0x31,
   0x35, 0x3a, 0x30, 0x37, 0x20, 0x2b, 0x30, 0x30, 0x30, 0x30, 0x20, 0x55, 0x54, 0x43]

/-- A block made by `generateBlock` for the payload `-1` on top of a genesis
block. -/
def negativeBlock : Block := (generateBlock (genesisBlock sampleTime) (-1) laterTime).1

/-! ## The library functions -/

theorem sha256Sum_nil :
    sha256Sum [] =
      [0xe3, 0xb0, 0xc4, 0x42, 0x98, 0xfc, 0x1c, 0x14, 0x9a, 0xfb, 0xf4, 0xc8, 0x99, 0x6f, 0xb9,
       0x24, 0x27, 0xae, 0x41, 0xe4, 0x64, 0x9b, 0x93, 0x4c, 0xa4, 0x95, 0x99, 0x1b, 0x78, 0x52,
       0xb8, 0x55] := by
  decide

theorem sha256Sum_abc :
    sha256Sum [0x61, 0x62, 0x63] =
      [0xba, 0x78, 0x16, 0xbf, 0x8f, 0x01, 0xcf, 0xea, 0x41, 0x41, 0x40, 0xde, 0x5d, 0xae, 0x22,
       0x23, 0xb0, 0x03, 0x61, 0xa3, 0x96, 0x17, 0x7a, 0x9c, 0xb4, 0x10, 0xff, 0x61, 0xf2, 0x00,
       0x15, 0xad] := by
  decide

theorem hexEncodeToString_sample :
    hexEncodeToString [0x00, 0x9f, 0xe3] = [0x30, 0x30, 0x39, 0x66, 0x65, 0x33] := by
  decide

theorem sha256Sum_length (msg : GoString) : (sha256Sum msg).length = 32 := by
  simp [sha256Sum, wordBytes]

theorem hexEncodeToString_length (src : GoString) :
    (hexEncodeToString src).length = 2 * src.length := by
  induction src with
  | nil => rfl
  | cons v rest ih =>
    simp only [hexEncodeToString, List.flatMap_cons, List.length_append, List.length_cons,
      List.length_nil] at ih ⊢
    omega

set_option maxRecDepth 100000 in
theorem hexDigits_decode : ∀ v : Fin 256,
    toByte (16 * fromHexDigit (hexDigit (v.val >>> 4)) +
      fromHexDigit (hexDigit (v.val &&& 0x0f))) = v := by
  decide

theorem hexDecodeString_hexEncodeToString (src : GoString) :
    hexDecodeString (hexEncodeToString src) = src := by
  induction src with
  | nil => rfl
  | cons v rest ih =>
    have h : hexEncodeToString (v :: rest) =
        hexDigit (v.val >>> 4) :: hexDigit (v.val &&& 0x0f) :: hexEncodeToString rest := by
      simp [hexEncodeToString]
    rw [h, hexDecodeString, ih, hexDigits_decode]

theorem hexEncodeToString_injective : Function.Injective hexEncodeToString :=
  Function.LeftInverse.injective hexDecodeString_hexEncodeToString

/-! ## The conversion `string(int)` -/

theorem lead_or (k c x : Nat) (h : x < 2 ^ k) : 2 ^ k * c ||| x = 2 ^ k * c + x :=
  (Nat.mul_add_lt_is_or h c).symm

theorem continuation_byte (x : Nat) : 0x80 ||| (x % 256 &&& 0x3F) = 128 + x % 64 := by
  have h1 : x % 256 &&& 0x3F = x % 64 := by
    have := Nat.and_pow_two_sub_one_eq_mod (x % 256) 6
    norm_num at this
    exact this
  rw [h1]
  have := lead_or 6 2 (x % 64) (by omega)
  norm_num at this
  exact this

theorem encodeRune_one (i : Nat) (h : i ≤ 0x7F) : encodeRune i = [toByte i] := by
  simp [encodeRune, h]

theorem encodeRune_two (i : Nat) (h1 : ¬ i ≤ 0x7F) (h2 : i ≤ 0x7FF) :
    encodeRune i = [toByte (192 + i / 64), toByte (128 + i % 64)] := by
  have hl : 0xC0 ||| (i >>> 6) % 256 = 192 + i / 64 := by
    rw [Nat.shiftRight_eq_div_pow]
    have := lead_or 5 6 (i / 2 ^ 6 % 256) (by omega)
    norm_num at this ⊢
    rw [this]; omega
  have hc := continuation_byte i
  unfold encodeRune
  rw [if_neg h1, if_pos h2, hl, hc]

theorem encode3_eq (r : Nat) (h : r ≤ 0xFFFF) :
    encode3 r = [toByte (224 + r / 4096), toByte (128 + r / 64 % 64), toByte (128 + r % 64)] := by
  have hl : 0xE0 ||| (r >>> 12) % 256 = 224 + r / 4096 := by
    rw [Nat.shiftRight_eq_div_pow]
    have := lead_or 4 14 (r / 2 ^ 12 % 256) (by omega)
    norm_num at this ⊢
    rw [this]; omega
  have hc1 := continuation_byte (r >>> 6)
  have hc2 := continuation_byte r
  rw [Nat.shiftRight_eq_div_pow] at hc1
  norm_num at hc1
  unfold encode3
  rw [hl, hc2, Nat.shiftRight_eq_div_pow]
  norm_num
  rw [hc1]

theorem encode4_eq (r : Nat) (h : r ≤ 0x10FFFF) :
    encode4 r = [toByte (240 + r / 262144), toByte (128 + r / 4096 % 64),
      toByte (128 + r / 64 % 64), toByte (128 + r % 64)] := by
  have hl : 0xF0 ||| (r >>> 18) % 256 = 240 + r / 262144 := by
    rw [Nat.shiftRight_eq_div_pow]
    have := lead_or 3 30 (r / 2 ^ 18 % 256) (by omega)
    norm_num at this ⊢
    rw [this]; omega
  have hc1 := continuation_byte (r >>> 12)
  have hc2 := continuation_byte (r >>> 6)
  have hc3 := continuation_byte r
  rw [Nat.shiftRight_eq_div_pow] at hc1 hc2
  norm_num at hc1 hc2
  unfold encode4
  rw [hl, hc3, Nat.shiftRight_eq_div_pow, Nat.shiftRight_eq_div_pow]
  norm_num
  rw [hc1, hc2]
  simp



theorem toByte_eq_iff (a b : Nat) : toByte a = toByte b ↔ a % 256 = b % 256 := by
  simp [toByte, Fin.ext_iff]

/-- The shape of `encodeRune` on a code point that is not replaced. -/
theorem encodeRune_eq (i : Nat) (h : i ≤ 0x10FFFF) (hs : ¬ (0xD800 ≤ i ∧ i ≤ 0xDFFF)) :
    encodeRune i =
      if i ≤ 0x7F then [toByte i]
      else if i ≤ 0x7FF then [toByte (192 + i / 64), toByte (128 + i % 64)]
      else if i ≤ 0xFFFF then
        [toByte (224 + i / 4096), toByte (128 + i / 64 % 64), toByte (128 + i % 64)]
      else [toByte (240 + i / 262144), toByte (128 + i / 4096 % 64),
        toByte (128 + i / 64 % 64), toByte (128 + i % 64)] := by
  by_cases h1 : i ≤ 0x7F
  · rw [encodeRune_one i h1, if_pos h1]
  by_cases h2 : i ≤ 0x7FF
  · rw [encodeRune_two i h1 h2, if_neg h1, if_pos h2]
  have h3 : ¬ (i > maxRune ∨ (surrogateMin ≤ i ∧ i ≤ surrogateMax)) := by
    simp only [maxRune, surrogateMin, surrogateMax]; omega
  by_cases h4 : i ≤ 0xFFFF
  · unfold encodeRune
    rw [if_neg h1, if_neg h2, if_neg h3, if_pos h4, if_neg h1, if_neg h2, if_pos h4,
      encode3_eq i h4]
  · unfold encodeRune
    rw [if_neg h1, if_neg h2, if_neg h3, if_neg h4, if_neg h1, if_neg h2, if_neg h4,
      encode4_eq i h]

theorem encodeRune_injective (i j : Nat) (hi : i ≤ 0x10FFFF) (hj : j ≤ 0x10FFFF)
    (si : ¬ (0xD800 ≤ i ∧ i ≤ 0xDFFF)) (sj : ¬ (0xD800 ≤ j ∧ j ≤ 0xDFFF))
    (h : encodeRune i = encodeRune j) : i = j := by
  rw [encodeRune_eq i hi si, encodeRune_eq j hj sj] at h
  split_ifs at h <;>
    simp only [List.cons.injEq, toByte_eq_iff, and_true, List.cons_ne_nil, and_false,
      reduceCtorEq] at h <;>
    omega

theorem encodeRune_replaced (i : Nat) (h : i > 0x10FFFF ∨ (0xD800 ≤ i ∧ i ≤ 0xDFFF)) :
    encodeRune i = [0xEF, 0xBF, 0xBD] := by
  have h1 : ¬ i ≤ 0x7F := by omega
  have h2 : ¬ i ≤ 0x7FF := by omega
  have h3 : i > maxRune ∨ (surrogateMin ≤ i ∧ i ≤ surrogateMax) := by
    simp only [maxRune, surrogateMin, surrogateMax]; exact h
  unfold encodeRune
  rw [if_neg h1, if_neg h2, if_pos h3]
  decide

theorem intstring_valid (v : Int) (h : ValidRune v) : intstring v = encodeRune v.toNat := by
  obtain ⟨h0, h1, _⟩ := h
  have hr : -(2 ^ 31) ≤ v ∧ v < 2 ^ 31 := by omega
  have hm : v % 2 ^ 32 = v := Int.emod_eq_of_lt h0 (by omega)
  unfold intstring
  rw [if_pos hr, hm]

theorem intstring_invalid (v : Int) (h : ¬ ValidRune v) : intstring v = [0xEF, 0xBF, 0xBD] := by
  unfold intstring
  split_ifs with hr
  · apply encodeRune_replaced
    unfold ValidRune at h
    omega
  · decide

theorem intstring_injective (v w : Int) (hv : ValidRune v) (hw : ValidRune w)
    (h : intstring v = intstring w) : v = w := by
  rw [intstring_valid v hv, intstring_valid w hw] at h
  obtain ⟨v0, v1, v2⟩ := hv
  obtain ⟨w0, w1, w2⟩ := hw
  have := encodeRune_injective v.toNat w.toNat (by omega) (by omega) (by omega) (by omega) h
  omega

/-! ## The validator and the extender -/

theorem isBlockValid_iff (newBlock oldBlock : Block) :
    isBlockValid newBlock oldBlock = true ↔
      wrapInt (oldBlock.Index + 1) = newBlock.Index ∧ oldBlock.Hash = newBlock.PrevHash ∧
        calculateHash newBlock = newBlock.Hash := by
  unfold isBlockValid
  by_cases h1 : wrapInt (oldBlock.Index + 1) = newBlock.Index <;>
    by_cases h2 : oldBlock.Hash = newBlock.PrevHash <;>
      by_cases h3 : calculateHash newBlock = newBlock.Hash <;> simp [h1, h2, h3]

theorem calculateHash_length (block : Block) : (calculateHash block).length = 64 := by
  simp [calculateHash, hexEncodeToString_length, sha256Sum_length]

theorem calculateHash_eq_iff (b c : Block) :
    calculateHash b = calculateHash c ↔ sha256Sum (record b) = sha256Sum (record c) := by
  unfold calculateHash
  exact hexEncodeToString_injective.eq_iff

theorem calculateHash_congr (b c : Block) (h : record b = record c) :
    calculateHash b = calculateHash c := by
  unfold calculateHash; rw [h]

theorem generateBlock_fst (oldBlock : Block) (BPM : Int) (ts : GoString) :
    (generateBlock oldBlock BPM ts).1 =
      ⟨wrapInt (oldBlock.Index + 1), ts, BPM,
        calculateHash ⟨wrapInt (oldBlock.Index + 1), ts, BPM, [], oldBlock.Hash⟩, oldBlock.Hash⟩ :=
  rfl

theorem generateBlock_valid (oldBlock : Block) (BPM : Int) (ts : GoString) :
    isBlockValid (generateBlock oldBlock BPM ts).1 oldBlock = true := by
  rw [isBlockValid_iff, generateBlock_fst]
  exact ⟨rfl, rfl, rfl⟩

theorem wrapInt_add_one (x : Int) (h : IsInt x) (hmax : x ≠ 2 ^ 63 - 1) :
    wrapInt (x + 1) = x + 1 := by
  unfold IsInt at h
  unfold wrapInt
  omega

theorem wrapInt_isInt (x : Int) : IsInt (wrapInt x) := by
  unfold IsInt wrapInt
  omega

/-! ## The claims about the validator, the extender and the resolver -/

/-- C1: `isBlockValid newBlock oldBlock` is true exactly when the three checks
pass, `oldBlock.Index + 1 == newBlock.Index` (the sum being the one of the
machine), `oldBlock.Hash == newBlock.PrevHash` and
`calculateHash(newBlock) == newBlock.Hash`; a candidate of index 7 on a
reference of index 5 is rejected. -/
theorem isBlockValid_spec (newBlock oldBlock : Block) :
    (isBlockValid newBlock oldBlock = true ↔
      wrapInt (oldBlock.Index + 1) = newBlock.Index ∧ oldBlock.Hash = newBlock.PrevHash ∧
        calculateHash newBlock = newBlock.Hash) ∧
    (oldBlock.Index = 5 → newBlock.Index = 7 → isBlockValid newBlock oldBlock = false) := by
  refine ⟨isBlockValid_iff newBlock oldBlock, fun h5 h7 => ?_⟩
  have hne : wrapInt (oldBlock.Index + 1) ≠ newBlock.Index := by
    rw [h5, h7]; decide
  unfold isBlockValid
  rw [if_pos hne]

theorem isBlockValid_spec_witness :
    isBlockValid ⟨7, laterTime, 82, [], []⟩ ⟨5, sampleTime, 0, [], []⟩ = false :=
  (isBlockValid_spec ⟨7, laterTime, 82, [], []⟩ ⟨5, sampleTime, 0, [], []⟩).2 rfl rfl

/-- C2: the block that `generateBlock tail v` returns passes
`isBlockValid` against `tail`, for every tail, payload and clock reading, also
when `tail.Index + 1` wraps around. -/
theorem generateBlock_isBlockValid (tail : Block) (v : Int) (ts : GoString) :
    isBlockValid (generateBlock tail v ts).1 tail = true :=
  generateBlock_valid tail v ts

/-- C3: `generateBlock tail v` returns a nil error and a block with `Index`
the machine sum `tail.Index + 1` (the mathematical sum unless `tail.Index` is
the largest `int`), `Timestamp` the text of the clock reading, `BPM` the
payload, `PrevHash` the hash of `tail`, and `Hash` the value of
`calculateHash` on the block with those four fields. -/
theorem generateBlock_spec (tail : Block) (v : Int) (ts : GoString) :
    (generateBlock tail v ts).2 = none ∧
    (generateBlock tail v ts).1.Index = wrapInt (tail.Index + 1) ∧
    (IsInt tail.Index → tail.Index ≠ 2 ^ 63 - 1 →
      (generateBlock tail v ts).1.Index = tail.Index + 1) ∧
    (generateBlock tail v ts).1.Timestamp = ts ∧
    (generateBlock tail v ts).1.BPM = v ∧
    (generateBlock tail v ts).1.PrevHash = tail.Hash ∧
    (generateBlock tail v ts).1.Hash =
      calculateHash ⟨wrapInt (tail.Index + 1), ts, v, [], tail.Hash⟩ ∧
    (generateBlock tail v ts).1.Hash = calculateHash (generateBlock tail v ts).1 := by
  refine ⟨rfl, rfl, fun h hmax => ?_, rfl, rfl, rfl, rfl, rfl⟩
  rw [generateBlock_fst]
  exact wrapInt_add_one tail.Index h hmax

theorem generateBlock_spec_witness :
    (generateBlock (genesisBlock sampleTime) 82 laterTime).1.Index = 0 + 1 :=
  (generateBlock_spec (genesisBlock sampleTime) 82 laterTime).2.2.1 (by decide) (by decide)

/-- C4: after `replaceChain newBlocks` the chain is `newBlocks` when that is
longer than the chain held before, and the chain held before when it is not
(also at equal length). -/
theorem replaceChain_spec (newBlocks Blockchain : List Block) :
    (newBlocks.length > Blockchain.length → replaceChain newBlocks Blockchain = newBlocks) ∧
    (newBlocks.length ≤ Blockchain.length → replaceChain newBlocks Blockchain = Blockchain) := by
  unfold replaceChain
  constructor
  · intro h; rw [if_pos h]
  · intro h; rw [if_neg (by omega)]

theorem replaceChain_spec_witness :
    replaceChain [genesisBlock sampleTime, negativeBlock] [genesisBlock laterTime] =
        [genesisBlock sampleTime, negativeBlock] ∧
      replaceChain [genesisBlock sampleTime] [genesisBlock laterTime] =
        [genesisBlock laterTime] :=
  ⟨(replaceChain_spec [genesisBlock sampleTime, negativeBlock] [genesisBlock laterTime]).1
      (by decide),
    (replaceChain_spec [genesisBlock sampleTime] [genesisBlock laterTime]).2 (by decide)⟩

/-! ## The text that is hashed -/

theorem intstring_replaced (v w : Int) (hv : ¬ ValidRune v) (hw : ¬ ValidRune w) :
    intstring v = intstring w := by
  rw [intstring_invalid v hv, intstring_invalid w hw]

theorem record_ne_of_differInOneField (b c : Block) (h : DifferInOneField b c)
    (hi : b.Index ≠ c.Index → ValidRune b.Index ∧ ValidRune c.Index)
    (hv : b.BPM ≠ c.BPM → ValidRune b.BPM ∧ ValidRune c.BPM) : record b ≠ record c := by
  intro heq
  unfold record at heq
  rcases h with ⟨h1, h2, h3, h4⟩ | ⟨h1, h2, h3, h4⟩ | ⟨h1, h2, h3, h4⟩ | ⟨h1, h2, h3, h4⟩
  · rw [h2, h3, h4, List.append_assoc, List.append_assoc, List.append_assoc,
      List.append_assoc, List.append_left_inj] at heq
    exact h1 (intstring_injective _ _ (hi h1).1 (hi h1).2 heq)
  · rw [h1, h3, h4, List.append_assoc, List.append_assoc, List.append_assoc,
      List.append_assoc, List.append_right_inj, List.append_left_inj] at heq
    exact h2 heq
  · rw [h1, h2, h4, List.append_left_inj, List.append_right_inj] at heq
    exact h3 (intstring_injective _ _ (hv h3).1 (hv h3).2 heq)
  · rw [h1, h2, h3, List.append_right_inj] at heq
    exact h4 heq

theorem intstring_eq_iff (v w : Int) :
    intstring v = intstring w ↔
      v = w ∨ (intstring v = [0xEF, 0xBF, 0xBD] ∧ intstring w = [0xEF, 0xBF, 0xBD]) := by
  constructor
  · intro h
    by_cases hv : ValidRune v
    · by_cases hw : ValidRune w
      · exact Or.inl (intstring_injective v w hv hw h)
      · have h2 := intstring_invalid w hw
        exact Or.inr ⟨h.trans h2, h2⟩
    · have h1 := intstring_invalid v hv
      exact Or.inr ⟨h1, h.symm.trans h1⟩
  · rintro (h | ⟨h1, h2⟩)
    · rw [h]
    · rw [h1, h2]

/-- Two blocks that differ in exactly one hashed field have the same text
hashed exactly when that field is `Index` or `BPM` and both of its values are
rendered as U+FFFD. -/
theorem record_eq_iff_of_differInOneField (b c : Block) (h : DifferInOneField b c) :
    record b = record c ↔
      (b.Index ≠ c.Index ∧ intstring b.Index = [0xEF, 0xBF, 0xBD] ∧
          intstring c.Index = [0xEF, 0xBF, 0xBD]) ∨
        (b.BPM ≠ c.BPM ∧ intstring b.BPM = [0xEF, 0xBF, 0xBD] ∧
          intstring c.BPM = [0xEF, 0xBF, 0xBD]) := by
  unfold record
  rcases h with ⟨h1, h2, h3, h4⟩ | ⟨h1, h2, h3, h4⟩ | ⟨h1, h2, h3, h4⟩ | ⟨h1, h2, h3, h4⟩
  · rw [h2, h3, h4, List.append_assoc, List.append_assoc, List.append_assoc,
      List.append_assoc, List.append_left_inj, intstring_eq_iff]
    constructor
    · rintro (h | h)
      · exact absurd h h1
      · exact Or.inl ⟨h1, h⟩
    · rintro (⟨-, h⟩ | ⟨h, -⟩)
      · exact Or.inr h
      · exact absurd rfl h
  · rw [h1, h3, h4, List.append_assoc, List.append_assoc, List.append_assoc,
      List.append_assoc, List.append_right_inj, List.append_left_inj]
    constructor
    · intro h; exact absurd h h2
    · rintro (⟨h, -⟩ | ⟨h, -⟩) <;> exact absurd rfl h
  · rw [h1, h2, h4, List.append_left_inj, List.append_right_inj, intstring_eq_iff]
    constructor
    · rintro (h | h)
      · exact absurd h h3
      · exact Or.inr ⟨h3, h⟩
    · rintro (⟨h, -⟩ | ⟨-, h⟩)
      · exact absurd rfl h
      · exact Or.inr h
  · rw [h1, h2, h3, List.append_right_inj]
    constructor
    · intro h; exact absurd h h4
    · rintro (⟨h, -⟩ | ⟨h, -⟩) <;> exact absurd rfl h

/-! ## The claims about the genesis block and the hash -/

/-- C5, as the claim states it, fails at the clock reading `sampleTime`: the
one block of the fresh chain does not hold the value of `calculateHash` in its
`Hash`. -/
theorem main_genesis_hash_not_calculated :
    ¬ ∃ g : Block, main sampleTime = [g] ∧ g.Index = 0 ∧ g.BPM = 0 ∧ g.PrevHash = [] ∧
      g.Hash = calculateHash g := by
  rintro ⟨g, hg, -, -, -, hh⟩
  have hgen : g = genesisBlock sampleTime := by
    simp only [main, List.nil_append, List.cons.injEq, and_true] at hg
    exact hg.symm
  have hlen := calculateHash_length g
  rw [← hh, hgen] at hlen
  exact absurd hlen (by decide)

/-- C5, amended: the fresh chain has exactly one block, with `Index` 0, the
clock reading as `Timestamp`, `BPM` 0, empty `PrevHash` and empty `Hash`; the
`Hash` is not the value of `calculateHash` on that block, which is 64
hexadecimal digits long. -/
theorem main_genesis (ts : GoString) :
    ∃ g : Block, main ts = [g] ∧ g.Index = 0 ∧ g.Timestamp = ts ∧ g.BPM = 0 ∧
      g.PrevHash = [] ∧ g.Hash = [] ∧ (calculateHash g).length = 64 ∧
      g.Hash ≠ calculateHash g := by
  refine ⟨genesisBlock ts, rfl, rfl, rfl, rfl, rfl, rfl, calculateHash_length _, ?_⟩
  intro hh
  have hlen := calculateHash_length (genesisBlock ts)
  have hempty : (genesisBlock ts).Hash = [] := rfl
  rw [← hh, hempty] at hlen
  exact absurd hlen (by decide)

/-- C6 at the failing input: `negativeBlock`, made by `generateBlock` with the
payload `-1`, is valid on its genesis block, and stays valid when its `BPM` is
changed to `-2` with the `Hash` left as it was. -/
theorem isBlockValid_tampered_negative :
    isBlockValid negativeBlock (genesisBlock sampleTime) = true ∧
      (-2 : Int) ≠ negativeBlock.BPM ∧
      isBlockValid { negativeBlock with BPM := -2 } (genesisBlock sampleTime) = true := by
  have hvalid : isBlockValid negativeBlock (genesisBlock sampleTime) = true :=
    generateBlock_valid _ _ _
  refine ⟨hvalid, by decide, ?_⟩
  rw [isBlockValid_iff] at hvalid ⊢
  refine ⟨hvalid.1, hvalid.2.1, ?_⟩
  have hrec : record { negativeBlock with BPM := -2 } = record negativeBlock := by decide
  rw [calculateHash_congr _ _ hrec]
  exact hvalid.2.2

set_option maxRecDepth 100000 in
/-- C7 at the failing input: the blocks `Block{1, laterTime, -1, "", ""}` and
`Block{1, laterTime, -2, "", ""}` differ in exactly one of the four fields, the
`BPM`; `calculateHash` hashes one and the same text for both, the byte 01 of the
index, the timestamp and U+FFFD for the payload, and returns the same digest
`0edc284729d80a493bad96fae67f2f7c07a3c9de52a98b2ba80126419003e257` for both. -/
theorem calculateHash_negative_collide :
    DifferInOneField ⟨1, laterTime, -1, [], []⟩ ⟨1, laterTime, -2, [], []⟩ ∧
      record ⟨1, laterTime, -1, [], []⟩ = [0x01] ++ laterTime ++ [0xEF, 0xBF, 0xBD] ∧
      record ⟨1, laterTime, -2, [], []⟩ = [0x01] ++ laterTime ++ [0xEF, 0xBF, 0xBD] ∧
      calculateHash ⟨1, laterTime, -1, [], []⟩ =
        [0x30, 0x65, 0x64, 0x63, 0x32, 0x38, 0x34, 0x37, 0x32, 0x39, 0x64, 0x38, 0x30, 0x61,
         0x34, 0x39, 0x33, 0x62, 0x61, 0x64, 0x39, 0x36, 0x66, 0x61, 0x65, 0x36, 0x37, 0x66,
         0x32, 0x66, 0x37, 0x63, 0x30, 0x37, 0x61, 0x33, 0x63, 0x39, 0x64, 0x65, 0x35, 0x32,
         0x61, 0x39, 0x38, 0x62, 0x32, 0x62, 0x61, 0x38, 0x30, 0x31, 0x32, 0x36, 0x34, 0x31,
         0x39, 0x30, 0x30, 0x33, 0x65, 0x32, 0x35, 0x37] ∧
      calculateHash ⟨1, laterTime, -2, [], []⟩ = calculateHash ⟨1, laterTime, -1, [], []⟩ := by
  refine ⟨by decide, by decide, by decide, by decide, ?_⟩
  exact calculateHash_congr _ _ (by decide)

/-! ## The write path -/

theorem handleWriteBlock_append (Blockchain : List Block) (v : Int) (ts : GoString)
    (tail : Block) (h : Blockchain.getLast? = some tail) :
    handleWriteBlock Blockchain (some v) ts =
      some (Blockchain ++ [(generateBlock tail v ts).1],
        Reply.created (generateBlock tail v ts).1) := by
  have hv : isBlockValid (generateBlock tail v ts).1 tail = true := generateBlock_valid tail v ts
  have hlen : (Blockchain ++ [(generateBlock tail v ts).1]).length > Blockchain.length := by
    simp
  unfold handleWriteBlock
  simp only [h]
  have hg : generateBlock tail v ts = ((generateBlock tail v ts).1, none) := rfl
  generalize generateBlock tail v ts = r at hv hlen hg ⊢
  obtain ⟨nb, err⟩ := r
  simp only at hv hlen
  simp only [Prod.mk.injEq, true_and] at hg
  subst hg
  simp only [hv, if_true, replaceChain, if_pos hlen]

/-- Every block of the chain but the first passes `isBlockValid` against the
block before it. -/
theorem linked_append (chain : List Block) (tail nb : Block)
    (hl : chain.getLast? = some tail) (hnb : isBlockValid nb tail = true)
    (hc : ∀ i p c, chain[i]? = some p → chain[i + 1]? = some c → isBlockValid c p = true) :
    ∀ i p c, (chain ++ [nb])[i]? = some p → (chain ++ [nb])[i + 1]? = some c →
      isBlockValid c p = true := by
  intro i p c hp hcur
  rw [List.getLast?_eq_getElem?] at hl
  have hne : chain.length ≠ 0 := by
    intro h0
    rw [List.length_eq_zero] at h0
    rw [h0] at hl
    simp at hl
  by_cases h1 : i + 1 < chain.length
  · rw [List.getElem?_append_left (by omega)] at hp
    rw [List.getElem?_append_left h1] at hcur
    exact hc i p c hp hcur
  · by_cases h2 : i + 1 = chain.length
    · rw [List.getElem?_append_left (by omega)] at hp
      rw [List.getElem?_append_right (by omega)] at hcur
      have hi : i = chain.length - 1 := by omega
      rw [hi, hl] at hp
      have h3 : i + 1 - chain.length = 0 := by omega
      rw [h3] at hcur
      simp only [List.getElem?_cons_zero, Option.some.injEq] at hp hcur
      rw [← hp, ← hcur]
      exact hnb
    · have h3 : (chain ++ [nb]).length ≤ i + 1 := by
        rw [List.length_append, List.length_singleton]; omega
      rw [List.getElem?_eq_none h3] at hcur
      exact absurd hcur (by simp)

theorem handleWrites_linked (ws : List (Int × GoString)) :
    ∀ chain : List Block, chain ≠ [] →
      (∀ i p c, chain[i]? = some p → chain[i + 1]? = some c → isBlockValid c p = true) →
      ∃ result, handleWrites chain ws = some result ∧
        result.length = chain.length + ws.length ∧
        ∀ i p c, result[i]? = some p → result[i + 1]? = some c → isBlockValid c p = true := by
  induction ws with
  | nil =>
    intro chain _ hc
    exact ⟨chain, rfl, rfl, hc⟩
  | cons w rest ih =>
    intro chain hne hc
    obtain ⟨v, ts⟩ := w
    have hl : chain.getLast? = some (chain.getLast hne) := List.getLast?_eq_getLast chain hne
    have hstep := handleWriteBlock_append chain v ts _ hl
    have hlink := linked_append chain _ _ hl (generateBlock_valid (chain.getLast hne) v ts) hc
    obtain ⟨result, hr, hlen, hres⟩ :=
      ih (chain ++ [(generateBlock (chain.getLast hne) v ts).1]) (by simp) hlink
    refine ⟨result, ?_, ?_, hres⟩
    · simp only [handleWrites, hstep, hr]
    · rw [hlen, List.length_append, List.length_singleton, List.length_cons]; omega

set_option maxRecDepth 100000 in
/-- The scenario of two writes, 82 and then 91, on a fresh chain: the blocks
have the indices 0, 1, 2 and the payloads 0, 82, 91. -/
theorem handleWrites_scenario :
    (handleWrites (main sampleTime) [(82, laterTime), (91, laterTime)]).map
        (fun chain => chain.map (fun b => (b.Index, b.BPM))) =
      some [(0, 0), (1, 82), (2, 91)] := by
  decide

/-- On a tail with the largest `int` as index the new index is the smallest. -/
theorem generateBlock_wraps :
    (generateBlock ⟨2 ^ 63 - 1, sampleTime, 0, [], []⟩ 82 laterTime).1.Index = -(2 ^ 63) := by
  decide

/-! ## The claims about the write path and the rendering of integers -/

/-- C8: from the one-block chain that `main` builds, any finite sequence of
writes is handled without a panic, and in the chain that results every block
at a position `i > 0` has the machine sum `chain[i-1].Index + 1` as `Index`,
the `Hash` of the block before it as `PrevHash`, and the value of
`calculateHash` on itself as `Hash`. -/
theorem handleWrites_chain_valid (ts0 : GoString) (ws : List (Int × GoString)) :
    ∃ chain : List Block, handleWrites (main ts0) ws = some chain ∧
      chain.length = ws.length + 1 ∧
      ∀ (i : Nat) (_ : 0 < i) (h : i < chain.length),
        chain[i].Index = wrapInt (chain[i - 1].Index + 1) ∧
        chain[i].PrevHash = chain[i - 1].Hash ∧
        calculateHash chain[i] = chain[i].Hash := by
  obtain ⟨chain, hr, hlen, hlink⟩ := handleWrites_linked ws (main ts0) (by simp [main])
    (by
      intro i p c _ hc
      have : (main ts0).length ≤ i + 1 := by simp [main]
      rw [List.getElem?_eq_none this] at hc
      exact absurd hc (by simp))
  refine ⟨chain, hr, ?_, ?_⟩
  · rw [hlen]; simp [main]; omega
  · intro i h0 h
    have hp : chain[i - 1]? = some chain[i - 1] := List.getElem?_eq_getElem (by omega)
    have hc : chain[i - 1 + 1]? = some chain[i] := by
      have hi : i - 1 + 1 = i := by omega
      rw [hi]
      exact List.getElem?_eq_getElem h
    have hv := hlink (i - 1) _ _ hp hc
    rw [isBlockValid_iff] at hv
    exact ⟨hv.1.symm, hv.2.1.symm, hv.2.2⟩

theorem handleWrites_chain_valid_witness :
    ∃ chain : List Block,
      handleWrites (main sampleTime) [(82, laterTime), (91, laterTime)] = some chain ∧
      chain.length = 2 + 1 ∧
      ∀ (i : Nat) (_ : 0 < i) (h : i < chain.length),
        chain[i].Index = wrapInt (chain[i - 1].Index + 1) ∧
        chain[i].PrevHash = chain[i - 1].Hash ∧
        calculateHash chain[i] = chain[i].Hash :=
  handleWrites_chain_valid sampleTime [(82, laterTime), (91, laterTime)]

/-- C9: on a non-empty chain one write with payload `v` leaves the chain that
was held with exactly one block appended, the block `generateBlock tail v` for
the tail of the chain held, which is also the block in the reply; the length
grows by one and every earlier block stays where it was. -/
theorem handleWriteBlock_spec (Blockchain : List Block) (v : Int) (ts : GoString)
    (h : Blockchain ≠ []) :
    ∃ tail newChain, Blockchain.getLast? = some tail ∧
      handleWriteBlock Blockchain (some v) ts =
        some (newChain, Reply.created (generateBlock tail v ts).1) ∧
      newChain = Blockchain ++ [(generateBlock tail v ts).1] ∧
      newChain.length = Blockchain.length + 1 ∧
      newChain ≠ [] ∧
      newChain.getLast? = some (generateBlock tail v ts).1 ∧
      ∀ i, i < Blockchain.length → newChain[i]? = Blockchain[i]? := by
  have hl : Blockchain.getLast? = some (Blockchain.getLast h) :=
    List.getLast?_eq_getLast Blockchain h
  refine ⟨Blockchain.getLast h, _, hl, handleWriteBlock_append Blockchain v ts _ hl, rfl, ?_, ?_,
    ?_, ?_⟩
  · simp
  · simp
  · simp
  · intro i hi
    exact List.getElem?_append_left hi

theorem handleWriteBlock_spec_witness :
    ∃ tail newChain, (main sampleTime).getLast? = some tail ∧
      handleWriteBlock (main sampleTime) (some 82) laterTime =
        some (newChain, Reply.created (generateBlock tail 82 laterTime).1) ∧
      newChain = main sampleTime ++ [(generateBlock tail 82 laterTime).1] ∧
      newChain.length = (main sampleTime).length + 1 ∧
      newChain ≠ [] ∧
      newChain.getLast? = some (generateBlock tail 82 laterTime).1 ∧
      ∀ i, i < (main sampleTime).length → newChain[i]? = (main sampleTime)[i]? :=
  handleWriteBlock_spec (main sampleTime) 82 laterTime (by decide)

/-- C10, as the claim states it, fails for the payloads 1 and 257, which agree
modulo 256: the texts that are hashed differ, and so do the digests. -/
theorem calculateHash_one_ne_257 :
    (1 : Int) % 256 = 257 % 256 ∧
      record ⟨1, sampleTime, 1, [], []⟩ = [0x01] ++ sampleTime ++ [0x01] ∧
      record ⟨1, sampleTime, 257, [], []⟩ = [0x01] ++ sampleTime ++ [0xC4, 0x81] ∧
      record ⟨1, sampleTime, 1, [], []⟩ ≠ record ⟨1, sampleTime, 257, [], []⟩ ∧
      calculateHash ⟨1, sampleTime, 1, [], []⟩ ≠ calculateHash ⟨1, sampleTime, 257, [], []⟩ := by
  refine ⟨by decide, by decide, by decide, by decide, ?_⟩
  rw [Ne, calculateHash_eq_iff]
  decide

/-- C10, amended: `calculateHash` renders `Index` and `BPM` by the conversion
`string(int)`, the UTF-8 text of the code point of that number, and every
integer that is not a valid code point is rendered as U+FFFD; two blocks equal
except for `BPM` values (or `Index` values) that are both not valid code
points have the same text hashed and the same digest, while two different
valid code points never give the same text. -/
theorem calculateHash_replaced_collide (b : Block) (v w : Int)
    (hv : ¬ ValidRune v) (hw : ¬ ValidRune w) :
    intstring v = [0xEF, 0xBF, 0xBD] ∧ intstring w = [0xEF, 0xBF, 0xBD] ∧
      record { b with BPM := v } = record { b with BPM := w } ∧
      calculateHash { b with BPM := v } = calculateHash { b with BPM := w } ∧
      record { b with Index := v } = record { b with Index := w } ∧
      calculateHash { b with Index := v } = calculateHash { b with Index := w } ∧
      ∀ x y : Int, ValidRune x → ValidRune y → x ≠ y →
        record { b with BPM := x } ≠ record { b with BPM := y } := by
  have h1 : record { b with BPM := v } = record { b with BPM := w } := by
    simp only [record, intstring_replaced v w hv hw]
  have h2 : record { b with Index := v } = record { b with Index := w } := by
    simp only [record, intstring_replaced v w hv hw]
  refine ⟨intstring_invalid v hv, intstring_invalid w hw, h1, calculateHash_congr _ _ h1, h2,
    calculateHash_congr _ _ h2, fun x y hx hy hxy => ?_⟩
  exact record_ne_of_differInOneField _ _ (Or.inr (Or.inr (Or.inl ⟨rfl, rfl, hxy, rfl⟩)))
    (fun h => absurd rfl h) (fun _ => ⟨hx, hy⟩)

theorem calculateHash_replaced_collide_witness :
    record { genesisBlock sampleTime with BPM := -1 } =
        record { genesisBlock sampleTime with BPM := -2 } ∧
      calculateHash { genesisBlock sampleTime with BPM := -1 } =
        calculateHash { genesisBlock sampleTime with BPM := -2 } :=
  ⟨(calculateHash_replaced_collide (genesisBlock sampleTime) (-1) (-2)
      (by decide) (by decide)).2.2.1,
    (calculateHash_replaced_collide (genesisBlock sampleTime) (-1) (-2)
      (by decide) (by decide)).2.2.2.1⟩

end BpmChain
